import Mathlib

set_option autoImplicit false

/-!
Verification of the route-cost model, incremental simulated-annealing
optimizer and distance-matrix maintenance of the urban delivery
optimizer (`delivery_optimization.py`).

The embedding is shallow: location identifiers are natural numbers, the
distance matrix is a total function `Nat → Nat → ℚ` (mirroring the numpy
array, whose cells hold non-negative floats; we use exact rationals),
and every source of randomness (the seed shuffle, the per-iteration pair
of swap positions, the per-iteration uniform draw) is passed explicitly,
as is the real exponential used by the Metropolis criterion.  Fallible
operations (indexing an empty route, `random.sample` on a route shorter
than two) are modelled with `Option`.
-/

/-- Location identifiers (OSM node ids) are opaque; we use naturals. -/
abbrev Node := Nat

/-- The distance matrix `self.dist_matrix`: a total table of rational costs. -/
abbrev Mat := Nat → Nat → ℚ

/-- A concrete all-ones distance matrix used for concrete runs. -/
def mOne : Mat := fun _ _ => 1

/-- The unreachable sentinel `1e9` written on `nx.NetworkXNoPath`. -/
def sentinel : ℚ := 1000000000

/-- Pointwise update of one matrix cell (`self.dist_matrix[i][j] = v`). -/
def mupdate (m : Mat) (i j : Nat) (v : ℚ) : Mat :=
  fun a b => if a = i ∧ b = j then v else m a b

theorem mupdate_same (m : Mat) (i j : Nat) (v : ℚ) : mupdate m i j v i j = v := by
  simp [mupdate]

theorem mupdate_ne (m : Mat) (i j : Nat) (v : ℚ) {a b : Nat}
    (h : ¬(a = i ∧ b = j)) : mupdate m i j v a b = m a b := by
  simp only [mupdate, if_neg h]

/-- Source `total_route_cost(route_indices)`: depot → first stop,
then consecutive legs, then back to the depot.  Indexing an empty route
(`route_indices[0]`) raises in Python, so the empty case is `none`. -/
def total_route_cost (m : Mat) (r : List Nat) : Option ℚ :=
  match r with
  | [] => none
  | _ :: _ =>
      some (((List.range (r.length - 1)).foldl
          (fun acc i => acc + m (r.getD i 0) (r.getD (i + 1) 0))
          (m 0 (r.getD 0 0))) + m (r.getLastD 0) 0)

/-- Modelled from the spec's contract for §4.2: `matrix[0][route[0]] +
Σ matrix[route[i]][route[i+1]] + matrix[route[last]][0]`, written with a
zip over consecutive pairs; compared against `total_route_cost`. -/
def spec_cost (m : Mat) (r : List Nat) : ℚ :=
  m 0 (r.headD 0) + ((r.zip r.tail).map (fun p => m p.1 p.2)).sum + m (r.getLastD 0) 0

/-- The function `total_route_cost` instrumented to count matrix lookups: one for the
depot departure, one per consecutive leg, one for the return leg. -/
def total_route_cost_counted (m : Mat) (r : List Nat) : Option (ℚ × Nat) :=
  match r with
  | [] => none
  | _ :: _ =>
      let s := (List.range (r.length - 1)).foldl
          (fun acc i => (acc.1 + m (r.getD i 0) (r.getD (i + 1) 0), acc.2 + 1))
          (m 0 (r.getD 0 0), 1)
      some (s.1 + m (r.getLastD 0) 0, s.2 + 1)

theorem foldl_add_eq_sum (f : Nat → ℚ) :
    ∀ (L : List Nat) (c : ℚ), L.foldl (fun a i => a + f i) c = c + (L.map f).sum
  | [], c => by simp
  | x :: t, c => by
      rw [List.foldl_cons, foldl_add_eq_sum f t (c + f x)]
      simp [add_assoc]

theorem foldl_counted_eq (m : Mat) (r : List Nat) :
    ∀ (L : List Nat) (c : ℚ) (k : Nat),
      L.foldl (fun acc i => (acc.1 + m (r.getD i 0) (r.getD (i + 1) 0), acc.2 + 1)) (c, k)
        = (L.foldl (fun a i => a + m (r.getD i 0) (r.getD (i + 1) 0)) c, k + L.length)
  | [], c, k => by simp
  | x :: t, c, k => by
      rw [List.foldl_cons, List.foldl_cons, foldl_counted_eq m r t]
      simp [Nat.add_assoc, Nat.add_comm 1]

theorem range_map_adjacent (m : Mat) :
    ∀ (r : List Nat),
      (List.range (r.length - 1)).map (fun i => m (r.getD i 0) (r.getD (i + 1) 0))
        = (r.zip r.tail).map (fun p => m p.1 p.2)
  | [] => by simp
  | [_] => by simp
  | a :: b :: t => by
      have ih := range_map_adjacent m (b :: t)
      simp only [List.length_cons, Nat.add_sub_cancel, List.tail_cons] at ih ⊢
      rw [List.zip_cons_cons, List.map_cons, List.range_succ_eq_map, List.map_cons,
        List.map_map]
      refine congrArg₂ (· :: ·) (by simp) ?_
      rw [← ih]
      refine List.map_congr_left ?_
      intro i _
      simp [List.getD_cons_succ]

theorem total_route_cost_eq_spec (m : Mat) (r : List Nat) (h : r ≠ []) :
    total_route_cost m r = some (spec_cost m r) := by
  match r with
  | [] => exact absurd rfl h
  | a :: t =>
      simp only [total_route_cost, spec_cost]
      rw [foldl_add_eq_sum, range_map_adjacent]
      simp [List.getD_cons_zero]

theorem total_route_cost_counted_eq (m : Mat) (r : List Nat) (h : r ≠ []) :
    total_route_cost_counted m r = some (spec_cost m r, r.length + 1) := by
  match r with
  | [] => exact absurd rfl h
  | a :: t =>
      simp only [total_route_cost_counted]
      rw [foldl_counted_eq, foldl_add_eq_sum, range_map_adjacent]
      simp only [spec_cost, List.getD_cons_zero, List.headD_cons, List.length_range,
        List.length_cons, Nat.add_sub_cancel]
      rw [Nat.add_comm 1 t.length]

/-- C6: for every non-empty route, `total_route_cost` returns exactly
`matrix[0][route[0]] + Σ matrix[route[i]][route[i+1]] + matrix[route[last]][0]`
(as stated by the spec), and it performs exactly `len(route) + 1` matrix
lookups, i.e. O(len(route)). -/
theorem C6_cost_formula (m : Mat) (r : List Nat) (h : r ≠ []) :
    total_route_cost m r = some (spec_cost m r) ∧
    total_route_cost_counted m r = some (spec_cost m r, r.length + 1) :=
  ⟨total_route_cost_eq_spec m r h, total_route_cost_counted_eq m r h⟩

/-- C6, witness: the two-stop route on the all-ones matrix matches the
spec formula and needs three lookups. -/
theorem C6_cost_formula_witness :
    total_route_cost mOne [1, 2] = some (spec_cost mOne [1, 2]) ∧
    total_route_cost_counted mOne [1, 2] = some (spec_cost mOne [1, 2], 3) :=
  C6_cost_formula mOne [1, 2] (by decide)

/-- The in-place pairwise swap `new_route[idx1], new_route[idx2] =
new_route[idx2], new_route[idx1]` (the tuple on the right is read before
either assignment happens). -/
def swapPos (l : List Nat) (i j : Nat) : List Nat :=
  (l.set i (l.getD j 0)).set j (l.getD i 0)

theorem getD_cons_set_perm :
    ∀ (t : List Nat) (k : Nat) (a : Nat), k < t.length →
      (t.getD k 0 :: t.set k a).Perm (a :: t)
  | b :: s, 0, a, _ => by
      simpa using List.Perm.swap a b s
  | b :: s, k + 1, a, h => by
      simp only [List.getD_cons_succ, List.set_cons_succ]
      have ih := getD_cons_set_perm s k a (by simpa using h)
      exact ((List.Perm.swap b (s.getD k 0) (s.set k a)).trans (ih.cons b)).trans
        (List.Perm.swap a b s)

theorem swapPos_perm :
    ∀ (l : List Nat) (i j : Nat), i < l.length → j < l.length → (swapPos l i j).Perm l
  | x :: t, 0, 0, _, _ => by
      simp [swapPos]
  | x :: t, 0, k + 1, _, hj => by
      simp only [swapPos, List.getD_cons_succ, List.getD_cons_zero, List.set_cons_zero,
        List.set_cons_succ]
      exact getD_cons_set_perm t k x (by simpa using hj)
  | x :: t, m + 1, 0, hi, _ => by
      simp only [swapPos, List.getD_cons_succ, List.getD_cons_zero, List.set_cons_succ,
        List.set_cons_zero]
      exact getD_cons_set_perm t m x (by simpa using hi)
  | x :: t, m + 1, k + 1, hi, hj => by
      simp only [swapPos, List.getD_cons_succ, List.set_cons_succ]
      exact (swapPos_perm t m k (by simpa using hi) (by simpa using hj)).cons x

/-- The mutable state of one `simulated_annealing` call. -/
structure SAState where
  current : List Nat
  currentCost : ℚ
  best : List Nat
  bestCost : ℚ
  temp : ℚ
  history : List ℚ

/-- The neighbor proposal: swap two sampled positions of the current route
(`random.sample` always yields in-range positions, modelled by `% length`). -/
def saPropose (s : SAState) (pr : Nat × Nat) : List Nat :=
  swapPos s.current (pr.1 % s.current.length) (pr.2 % s.current.length)

/-- The acceptance probability, `math.exp(-delta / temp) if delta > 0 else 1.0`,
with the real exponential passed in abstractly as `E`. -/
def saAccProb (E : ℚ → ℚ) (temp delta : ℚ) : ℚ :=
  if 0 < delta then E (-delta / temp) else 1

/-- One iteration of the annealing loop body.  `random.sample` raises when
the route has fewer than two positions, hence the `none` branch; otherwise
the proposal is evaluated, accepted by the Metropolis test `u < prob`, the
best-so-far is updated, the best cost is appended to the history and the
temperature decays. -/
def saStep (m : Mat) (cr : ℚ) (E : ℚ → ℚ) (pr : Nat × Nat) (u : ℚ) (s : SAState) :
    Option SAState :=
  if s.current.length < 2 then none
  else
    match total_route_cost m (saPropose s pr) with
    | none => none
    | some newCost =>
        if u < saAccProb E s.temp (newCost - s.currentCost) then
          if newCost < s.bestCost then
            some ⟨saPropose s pr, newCost, saPropose s pr, newCost,
              s.temp * cr, s.history ++ [newCost]⟩
          else
            some ⟨saPropose s pr, newCost, s.best, s.bestCost,
              s.temp * cr, s.history ++ [s.bestCost]⟩
        else
          some ⟨s.current, s.currentCost, s.best, s.bestCost,
            s.temp * cr, s.history ++ [s.bestCost]⟩

/-- The `for i in range(max_iter)` loop: run the body, then stop when the
budget is exhausted or the decayed temperature has dropped below 1.
`k` is the iteration counter indexing the random streams. -/
def saLoop (m : Mat) (cr : ℚ) (E : ℚ → ℚ) (prs : Nat → Nat × Nat) (us : Nat → ℚ) :
    Nat → Nat → SAState → Option SAState
  | 0, _, s => some s
  | fuel + 1, k, s =>
      match saStep m cr E (prs k) (us k) s with
      | none => none
      | some s' => if s'.temp < 1 then some s' else saLoop m cr E prs us fuel (k + 1) s'

/-- The seed route: the supplied `initial_route` if any, otherwise a shuffle
of `list(range(1, num_targets))`.  The shuffle is an explicit parameter. -/
def saSeed (numTargets : Nat) (shuf : List Nat → List Nat)
    (initRoute : Option (List Nat)) : List Nat :=
  match initRoute with
  | none => shuf (List.range' 1 (numTargets - 1))
  | some r => r

/-- Source `simulated_annealing(initial_route, initial_temp, cooling_rate, max_iter)`,
returning `(best_route, best_cost, costs_history)` (the wall-clock time the
source also returns is dropped).  `none` models a raised exception. -/
def simulated_annealing (m : Mat) (numTargets : Nat) (initRoute : Option (List Nat))
    (initialTemp cr : ℚ) (maxIter : Nat) (shuf : List Nat → List Nat)
    (prs : Nat → Nat × Nat) (us : Nat → ℚ) (E : ℚ → ℚ) :
    Option (List Nat × ℚ × List ℚ) :=
  match total_route_cost m (saSeed numTargets shuf initRoute) with
  | none => none
  | some c0 =>
      (saLoop m cr E prs us maxIter 0
          ⟨saSeed numTargets shuf initRoute, c0, saSeed numTargets shuf initRoute, c0,
            initialTemp, []⟩).map
        (fun s => (s.best, s.bestCost, s.history))

/-- The number of loop iterations performed, as a function of the schedule
parameters alone: the budget decrements each round and the loop stops once
the decayed temperature falls below 1. -/
def sa_iters (temp cr : ℚ) : Nat → Nat
  | 0 => 0
  | fuel + 1 => if temp * cr < 1 then 1 else 1 + sa_iters (temp * cr) cr fuel

theorem saStep_some {m : Mat} {cr : ℚ} {E : ℚ → ℚ} {pr : Nat × Nat} {u : ℚ}
    {s s' : SAState} (h : saStep m cr E pr u s = some s') :
    s'.temp = s.temp * cr ∧
    s'.history = s.history ++ [s'.bestCost] ∧
    s'.bestCost ≤ s.bestCost ∧
    s'.current.Perm s.current ∧
    (s'.best = s.best ∨ s'.best = s'.current) := by
  unfold saStep at h
  split at h
  · exact absurd h (by simp)
  next hlen =>
    have hpos : 0 < s.current.length := by omega
    have hperm : (saPropose s pr).Perm s.current :=
      swapPos_perm _ _ _ (Nat.mod_lt _ hpos) (Nat.mod_lt _ hpos)
    split at h
    · exact absurd h (by simp)
    next newCost heq =>
      split at h
      · split at h
        next himp =>
          injection h with h
          subst h
          exact ⟨rfl, rfl, le_of_lt himp, hperm, Or.inr rfl⟩
        next himp =>
          injection h with h
          subst h
          exact ⟨rfl, rfl, le_refl _, hperm, Or.inl rfl⟩
      next hrej =>
        injection h with h
        subst h
        exact ⟨rfl, rfl, le_refl _, List.Perm.refl _, Or.inl rfl⟩

theorem saLoop_some_facts {m : Mat} {cr : ℚ} {E : ℚ → ℚ} {prs : Nat → Nat × Nat}
    {us : Nat → ℚ} :
    ∀ (fuel k : Nat) (s s' : SAState), saLoop m cr E prs us fuel k s = some s' →
      s'.bestCost ≤ s.bestCost ∧
      s'.history.length = s.history.length + sa_iters s.temp cr fuel ∧
      s'.current.Perm s.current ∧
      (s'.best = s.best ∨ s'.best.Perm s.current)
  | 0, _, s, s', h => by
      injection h with h
      subst h
      exact ⟨le_refl _, by simp [sa_iters], List.Perm.refl _, Or.inl rfl⟩
  | fuel + 1, k, s, s', h => by
      unfold saLoop at h
      split at h
      · exact absurd h (by simp)
      next s'' heq =>
        obtain ⟨ht, hh, hb, hcp, hbp⟩ := saStep_some heq
        have hlen : s''.history.length = s.history.length + 1 := by
          rw [hh, List.length_append, List.length_singleton]
        split at h
        next htemp =>
          injection h with h
          subst h
          have hcr : s.temp * cr < 1 := ht ▸ htemp
          refine ⟨hb, ?_, hcp, ?_⟩
          · rw [hlen]
            simp [sa_iters, if_pos hcr]
          · rcases hbp with h1 | h1
            · exact Or.inl h1
            · exact Or.inr (h1 ▸ hcp)
        next htemp =>
          obtain ⟨ih1, ih2, ih3, ih4⟩ := saLoop_some_facts fuel (k + 1) s'' s' h
          have hcr : ¬ s.temp * cr < 1 := fun hc => htemp (ht ▸ hc)
          refine ⟨le_trans ih1 hb, ?_, ih3.trans hcp, ?_⟩
          · rw [ih2, hlen, ht]
            simp only [sa_iters, if_neg hcr]
            omega
          · rcases ih4 with h1 | h1
            · rcases hbp with h2 | h2
              · exact Or.inl (h1.trans h2)
              · exact Or.inr ((h1.trans h2) ▸ hcp)
            · exact Or.inr (h1.trans hcp)

/-- The history invariant: the best cost bounds every recorded sample from
below, the samples are non-increasing, and the last sample (if any) is the
current best cost. -/
def histInv (s : SAState) : Prop :=
  (∀ x ∈ s.history, s.bestCost ≤ x) ∧
  s.history.Pairwise (fun a b => b ≤ a) ∧
  (s.history = [] ∨ s.history.getLast? = some s.bestCost)

theorem saStep_histInv {m : Mat} {cr : ℚ} {E : ℚ → ℚ} {pr : Nat × Nat} {u : ℚ}
    {s s' : SAState} (h : saStep m cr E pr u s = some s') (hs : histInv s) :
    histInv s' := by
  obtain ⟨-, hh, hb, -, -⟩ := saStep_some h
  obtain ⟨h1, h2, h3⟩ := hs
  refine ⟨?_, ?_, Or.inr ?_⟩
  · intro x hx
    rw [hh] at hx
    rcases List.mem_append.1 hx with hx | hx
    · exact le_trans hb (h1 x hx)
    · rw [List.mem_singleton] at hx
      exact le_of_eq hx.symm
  · rw [hh]
    refine List.pairwise_append.2 ⟨h2, by simp, ?_⟩
    intro a ha b hb'
    rw [List.mem_singleton] at hb'
    subst hb'
    exact le_trans hb (h1 a ha)
  · rw [hh]
    exact List.getLast?_concat _

theorem saLoop_histInv {m : Mat} {cr : ℚ} {E : ℚ → ℚ} {prs : Nat → Nat × Nat}
    {us : Nat → ℚ} :
    ∀ (fuel k : Nat) (s s' : SAState), saLoop m cr E prs us fuel k s = some s' →
      histInv s → histInv s'
  | 0, _, s, s', h, hs => by
      injection h with h
      subst h
      exact hs
  | fuel + 1, k, s, s', h, hs => by
      unfold saLoop at h
      split at h
      · exact absurd h (by simp)
      next s'' heq =>
        have hs'' := saStep_histInv heq hs
        split at h
        · injection h with h
          subst h
          exact hs''
        · exact saLoop_histInv fuel (k + 1) s'' s' h hs''

theorem sa_iters_le (cr : ℚ) : ∀ (f : Nat) (T : ℚ), sa_iters T cr f ≤ f
  | 0, _ => le_refl 0
  | f + 1, T => by
      unfold sa_iters
      split
      · omega
      · have := sa_iters_le cr f (T * cr)
        omega

theorem sa_iters_temp_ge_one (cr : ℚ) :
    ∀ (f : Nat) (T : ℚ), 1 ≤ T → ∀ k, k < sa_iters T cr f → 1 ≤ T * cr ^ k
  | 0, T, _, k, hk => by simp [sa_iters] at hk
  | f + 1, T, hT, k, hk => by
      unfold sa_iters at hk
      split at hk
      · have hk0 : k = 0 := by omega
        subst hk0
        simpa using hT
      next hcr =>
        cases k with
        | zero => simpa using hT
        | succ k' =>
            have hT' : 1 ≤ T * cr := not_lt.1 hcr
            have hrec := sa_iters_temp_ge_one cr f (T * cr) hT' k' (by omega)
            calc (1 : ℚ) ≤ (T * cr) * cr ^ k' := hrec
              _ = T * cr ^ (k' + 1) := by ring

theorem simulated_annealing_some {m : Mat} {numTargets : Nat}
    {initRoute : Option (List Nat)} {T cr : ℚ} {maxIter : Nat}
    {shuf : List Nat → List Nat} {prs : Nat → Nat × Nat} {us : Nat → ℚ} {E : ℚ → ℚ}
    {r : List Nat} {c : ℚ} {hist : List ℚ}
    (h : simulated_annealing m numTargets initRoute T cr maxIter shuf prs us E
        = some (r, c, hist)) :
    ∃ c0 s', total_route_cost m (saSeed numTargets shuf initRoute) = some c0 ∧
      saLoop m cr E prs us maxIter 0
        ⟨saSeed numTargets shuf initRoute, c0, saSeed numTargets shuf initRoute, c0,
          T, []⟩ = some s' ∧
      s'.best = r ∧ s'.bestCost = c ∧ s'.history = hist := by
  unfold simulated_annealing at h
  split at h
  · exact absurd h (by simp)
  next c0 heq =>
    rw [Option.map_eq_some'] at h
    obtain ⟨s', hs', hmap⟩ := h
    rw [Prod.ext_iff] at hmap
    obtain ⟨h1, hmap⟩ := hmap
    rw [Prod.ext_iff] at hmap
    exact ⟨c0, s', heq, hs', h1, hmap.1, hmap.2⟩

theorem cost_one_two : total_route_cost mOne [1, 2] = some 3 := by
  norm_num [total_route_cost, mOne, List.range_succ]

theorem concrete_run_low_temp :
    simulated_annealing mOne 3 (some [1, 2]) (1/2) (1/2) 5 id (fun _ => (0, 1))
      (fun _ => 1) (fun _ => 0) = some ([1, 2], 3, [3]) := by
  norm_num [simulated_annealing, saSeed, saLoop, saStep, saPropose, saAccProb, swapPos,
    total_route_cost, mOne, List.range_succ]

theorem concrete_run_two_iters :
    simulated_annealing mOne 3 (some [1, 2]) 2 (1/2) 5 id (fun _ => (0, 1))
      (fun _ => 1) (fun _ => 0) = some ([1, 2], 3, [3, 3]) := by
  norm_num [simulated_annealing, saSeed, saLoop, saStep, saPropose, saAccProb, swapPos,
    total_route_cost, mOne, List.range_succ]

/-- C1, counterexample: with a 1×1 target set (depot only, zero orders)
and the source's default schedule, `simulated_annealing` raises (modelled
`none`): `total_route_cost` indexes the empty seed route before the loop.
The claim says it returns an empty route and cost 0 without error. -/
theorem C1_counterexample :
    simulated_annealing mOne 1 none 1000 (995/1000) 5000 id (fun _ => (0, 1))
      (fun _ => 1) (fun _ => 0) = none := by
  rfl

/-- C1, amended: with fewer than two orders the optimizer does not
short-circuit to a trivial route; it fails.  With zero orders (`N = 1`) the
cost of the empty seed route is undefined (index error) whatever the budget;
with one order (`N = 2`) and at least one iteration, the first neighbor
proposal fails (`random.sample` cannot draw two positions from a
length-one route). -/
theorem C1_degenerate_error (m : Mat) (T cr : ℚ) (maxIter : Nat)
    (shuf : List Nat → List Nat) (prs : Nat → Nat × Nat) (us : Nat → ℚ) (E : ℚ → ℚ)
    (N : Nat) (hshuf : ∀ l, (shuf l).Perm l)
    (hN : N = 1 ∨ (N = 2 ∧ 1 ≤ maxIter)) :
    simulated_annealing m N none T cr maxIter shuf prs us E = none := by
  rcases hN with h1 | ⟨h2, hmax⟩
  · subst h1
    have hnil : shuf [] = [] := by
      have h := hshuf []
      rwa [List.perm_nil] at h
    have hseed : saSeed 1 shuf none = [] := hnil
    unfold simulated_annealing
    rw [hseed]
    rfl
  · subst h2
    have hone : shuf [1] = [1] := by
      have h := hshuf [1]
      rwa [List.perm_singleton] at h
    have hseed : saSeed 2 shuf none = [1] := hone
    obtain ⟨f, rfl⟩ : ∃ f, maxIter = f + 1 := ⟨maxIter - 1, by omega⟩
    unfold simulated_annealing
    rw [hseed]
    rfl

/-- C1 amended witness: a concrete 2-target instance (one order) with a
positive budget errors out. -/
theorem C1_degenerate_error_witness :
    simulated_annealing mOne 2 none 1000 (995/1000) 3 id (fun _ => (0, 1))
      (fun _ => 1) (fun _ => 0) = none :=
  C1_degenerate_error mOne 1000 (995/1000) 3 id (fun _ => (0, 1)) (fun _ => 1)
    (fun _ => 0) 2 (fun l => List.Perm.refl l) (Or.inr ⟨rfl, by omega⟩)

/-- C2, counterexample: a call with `initial_temperature = 1/2 < 1`
still executes one full iteration (the history gets one entry), because the
threshold is only tested after the first decay; so it is not the case that
an iteration runs only while the temperature is at least 1. -/
theorem C2_counterexample :
    simulated_annealing mOne 3 (some [1, 2]) (1/2) (1/2) 5 id (fun _ => (0, 1))
        (fun _ => 1) (fun _ => 0) = some ([1, 2], 3, [3]) ∧
    ((1 : ℚ)/2) < 1 :=
  ⟨concrete_run_low_temp, by norm_num⟩

/-- C2, amended: for every completed call, the history length (one entry
per executed iteration) equals `sa_iters initial_temp cooling_rate max_iter`,
a function of the schedule parameters alone — independent of the distance
matrix; the count never exceeds `max_iter`; and provided the initial
temperature is at least 1, every executed iteration starts with temperature
`T·cr^k ≥ 1` (without that proviso the first iteration runs regardless,
since the threshold is tested only after the first decay). -/
theorem C2_iteration_schedule (m : Mat) (N : Nat) (initRoute : Option (List Nat))
    (T cr : ℚ) (maxIter : Nat) (shuf : List Nat → List Nat) (prs : Nat → Nat × Nat)
    (us : Nat → ℚ) (E : ℚ → ℚ) (r : List Nat) (c : ℚ) (hist : List ℚ)
    (hT : 1 ≤ T)
    (hrun : simulated_annealing m N initRoute T cr maxIter shuf prs us E
        = some (r, c, hist)) :
    hist.length = sa_iters T cr maxIter ∧
    sa_iters T cr maxIter ≤ maxIter ∧
    (∀ k, k < sa_iters T cr maxIter → 1 ≤ T * cr ^ k) := by
  obtain ⟨c0, s', heq, hloop, hb, hbc, hh⟩ := simulated_annealing_some hrun
  obtain ⟨-, hlen, -, -⟩ := saLoop_some_facts maxIter 0 _ s' hloop
  refine ⟨?_, sa_iters_le cr maxIter T, sa_iters_temp_ge_one cr maxIter T hT⟩
  rw [← hh, hlen]
  simp

/-- C2 amended witness: a concrete completed run at `T = 2`,
`cr = 1/2`, budget 5 performs exactly two iterations. -/
theorem C2_iteration_schedule_witness :
    ([3, 3] : List ℚ).length = sa_iters 2 (1/2) 5 ∧
    sa_iters 2 (1/2) 5 ≤ 5 ∧
    (∀ k, k < sa_iters 2 (1/2) 5 → 1 ≤ (2 : ℚ) * (1/2) ^ k) :=
  C2_iteration_schedule mOne 3 (some [1, 2]) 2 (1/2) 5 id (fun _ => (0, 1))
    (fun _ => 1) (fun _ => 0) [1, 2] 3 [3, 3] (by norm_num) concrete_run_two_iters

/-- C4: every completed iteration appends exactly one entry to the
history (its length is `sa_iters T cr maxIter`, the number of iterations,
hence at most `max_iter`), the appended value is the best-so-far cost — so
consecutive entries are non-increasing and the last entry is the returned
best cost. -/
theorem C4_history (m : Mat) (N : Nat) (initRoute : Option (List Nat))
    (T cr : ℚ) (maxIter : Nat) (shuf : List Nat → List Nat) (prs : Nat → Nat × Nat)
    (us : Nat → ℚ) (E : ℚ → ℚ) (r : List Nat) (c : ℚ) (hist : List ℚ)
    (hrun : simulated_annealing m N initRoute T cr maxIter shuf prs us E
        = some (r, c, hist)) :
    hist.length = sa_iters T cr maxIter ∧
    hist.length ≤ maxIter ∧
    (∀ i, i + 1 < hist.length → hist.getD (i + 1) 0 ≤ hist.getD i 0) ∧
    (hist ≠ [] → hist.getLast? = some c) := by
  obtain ⟨c0, s', heq, hloop, hb, hbc, hh⟩ := simulated_annealing_some hrun
  obtain ⟨-, hlen, -, -⟩ := saLoop_some_facts maxIter 0 _ s' hloop
  have hinv := saLoop_histInv maxIter 0 _ s' hloop ⟨by simp, by simp, Or.inl rfl⟩
  obtain ⟨-, hpair, hlast⟩ := hinv
  refine ⟨?_, ?_, ?_, ?_⟩
  · rw [← hh, hlen]
    simp
  · rw [← hh, hlen]
    simpa using sa_iters_le cr maxIter T
  · intro i hi1
    have hp := List.pairwise_iff_getElem.1 (hh ▸ hpair)
    have hi0 : i < hist.length := by omega
    have hij := hp i (i + 1) hi0 hi1 (by omega)
    rw [List.getD_eq_getElem _ _ hi1, List.getD_eq_getElem _ _ hi0]
    exact hij
  · intro hne
    rcases hlast with h0 | h0
    · exact absurd (hh ▸ h0) hne
    · rw [← hh, h0, hbc]

/-- C4, witness: the concrete two-iteration run records `[3, 3]`. -/
theorem C4_history_witness :
    ([3, 3] : List ℚ).length = sa_iters 2 (1/2) 5 ∧
    ([3, 3] : List ℚ).length ≤ 5 ∧
    (∀ i, i + 1 < ([3, 3] : List ℚ).length →
      ([3, 3] : List ℚ).getD (i + 1) 0 ≤ ([3, 3] : List ℚ).getD i 0) ∧
    (([3, 3] : List ℚ) ≠ [] → ([3, 3] : List ℚ).getLast? = some 3) :=
  C4_history mOne 3 (some [1, 2]) 2 (1/2) 5 id (fun _ => (0, 1)) (fun _ => 1)
    (fun _ => 0) [1, 2] 3 [3, 3] concrete_run_two_iters

/-- C5: for every completed call seeded with a supplied `initial_route`
(the hot-start path included), the returned best cost is at most the cost of
that seed route as evaluated by `total_route_cost` on the same matrix. -/
theorem C5_best_le_seed (m : Mat) (N : Nat) (seed : List Nat)
    (T cr : ℚ) (maxIter : Nat) (shuf : List Nat → List Nat) (prs : Nat → Nat × Nat)
    (us : Nat → ℚ) (E : ℚ → ℚ) (r : List Nat) (c : ℚ) (hist : List ℚ) (c0 : ℚ)
    (hrun : simulated_annealing m N (some seed) T cr maxIter shuf prs us E
        = some (r, c, hist))
    (hseed : total_route_cost m seed = some c0) :
    c ≤ c0 := by
  obtain ⟨c1, s', heq, hloop, -, hbc, -⟩ := simulated_annealing_some hrun
  simp only [saSeed] at heq hloop
  obtain ⟨hle, -, -, -⟩ := saLoop_some_facts maxIter 0 _ s' hloop
  have hc10 : c1 = c0 := by
    rw [heq] at hseed
    exact Option.some.inj hseed
  rw [← hbc, ← hc10]
  exact hle

/-- C5, witness: hot-start on the all-ones matrix with seed `[1, 2]`
(cost 3) returns a best cost of 3 ≤ 3. -/
theorem C5_best_le_seed_witness : (3 : ℚ) ≤ 3 :=
  C5_best_le_seed mOne 3 [1, 2] 2 (1/2) 5 id (fun _ => (0, 1)) (fun _ => 1)
    (fun _ => 0) [1, 2] 3 [3, 3] 3 concrete_run_two_iters cost_one_two

/-- C9: whenever the seed route (supplied or freshly shuffled) is a
permutation of `1..N-1`, the returned best route is too: it has length
`N-1`, contains each of those indices exactly once, and never contains the
depot index 0 — the swap move preserves the multiset at every iteration. -/
theorem C9_route_permutation (m : Mat) (N : Nat) (initRoute : Option (List Nat))
    (T cr : ℚ) (maxIter : Nat) (shuf : List Nat → List Nat) (prs : Nat → Nat × Nat)
    (us : Nat → ℚ) (E : ℚ → ℚ) (r : List Nat) (c : ℚ) (hist : List ℚ)
    (hrun : simulated_annealing m N initRoute T cr maxIter shuf prs us E
        = some (r, c, hist))
    (hperm : (saSeed N shuf initRoute).Perm (List.range' 1 (N - 1))) :
    r.Perm (List.range' 1 (N - 1)) ∧
    r.length = N - 1 ∧
    (∀ x ∈ List.range' 1 (N - 1), r.count x = 1) ∧
    0 ∉ r := by
  obtain ⟨c0, s', heq, hloop, hb, -, -⟩ := simulated_annealing_some hrun
  obtain ⟨-, -, hcur, hbest⟩ := saLoop_some_facts maxIter 0 _ s' hloop
  have hrseed : r.Perm (saSeed N shuf initRoute) := by
    rcases hbest with h1 | h1
    · rw [← hb, h1]
    · rw [← hb]
      exact h1
  have hr : r.Perm (List.range' 1 (N - 1)) := hrseed.trans hperm
  refine ⟨hr, ?_, ?_, ?_⟩
  · rw [hr.length_eq, List.length_range']
  · intro x hx
    rw [hr.count_eq]
    exact List.count_eq_one_of_mem (List.nodup_range' _ _) hx
  · intro h0
    have hm := hr.mem_iff.1 h0
    rw [List.mem_range'_1] at hm
    omega

/-- C9, witness: the concrete run on three targets returns `[1, 2]`, a
permutation of `1..2`. -/
theorem C9_route_permutation_witness :
    ([1, 2] : List Nat).Perm (List.range' 1 (3 - 1)) ∧
    ([1, 2] : List Nat).length = 3 - 1 ∧
    (∀ x ∈ List.range' 1 (3 - 1), ([1, 2] : List Nat).count x = 1) ∧
    0 ∉ ([1, 2] : List Nat) :=
  C9_route_permutation mOne 3 (some [1, 2]) 2 (1/2) 5 id (fun _ => (0, 1))
    (fun _ => 1) (fun _ => 0) [1, 2] 3 [3, 3] concrete_run_two_iters (List.Perm.refl [1, 2])

/-- One body execution of the double loop in `precalculate_distances`:
skip the diagonal, query the oracle, write `length * traffic_factor`, or
the sentinel when no path exists.  `tf i j` is the `random.uniform(1.0, 1.2)`
draw used for cell `(i, j)`. -/
def build_cell (oracle : Node → Node → Option ℚ) (tgts : List Node)
    (tf : Nat → Nat → ℚ) (m : Mat) (i j : Nat) : Mat :=
  if i = j then m
  else
    match oracle (tgts.getD i 0) (tgts.getD j 0) with
    | some d => mupdate m i j (d * tf i j)
    | none => mupdate m i j sentinel

/-- The inner `for j in range(self.num_targets)` loop of the bulk build. -/
def build_row (oracle : Node → Node → Option ℚ) (tgts : List Node)
    (tf : Nat → Nat → ℚ) (N : Nat) (m : Mat) (i : Nat) : Mat :=
  (List.range N).foldl (fun acc j => build_cell oracle tgts tf acc i j) m

/-- Source `precalculate_distances`: the full double loop over the zero matrix
allocated at initialization. -/
def precalculate_distances (oracle : Node → Node → Option ℚ) (tgts : List Node)
    (tf : Nat → Nat → ℚ) : Mat :=
  (List.range tgts.length).foldl
    (fun acc i => build_row oracle tgts tf tgts.length acc i) (fun _ _ => 0)

/-- The value the bulk build stores off-diagonal: the oracle length scaled
by the traffic factor, or the sentinel when the oracle has no path. -/
def build_entry (oracle : Node → Node → Option ℚ) (tgts : List Node)
    (tf : Nat → Nat → ℚ) (i j : Nat) : ℚ :=
  match oracle (tgts.getD i 0) (tgts.getD j 0) with
  | some d => d * tf i j
  | none => sentinel

theorem build_cell_ne (oracle : Node → Node → Option ℚ) (tgts : List Node)
    (tf : Nat → Nat → ℚ) (m : Mat) (i j : Nat) {a b : Nat} (h : ¬(a = i ∧ b = j)) :
    build_cell oracle tgts tf m i j a b = m a b := by
  unfold build_cell
  split
  · rfl
  · cases horacle : oracle (tgts.getD i 0) (tgts.getD j 0) with
    | some d => exact mupdate_ne m i j (d * tf i j) h
    | none => exact mupdate_ne m i j sentinel h

theorem build_cell_same (oracle : Node → Node → Option ℚ) (tgts : List Node)
    (tf : Nat → Nat → ℚ) (m : Mat) (i j : Nat) (hij : i ≠ j) :
    build_cell oracle tgts tf m i j i j = build_entry oracle tgts tf i j := by
  unfold build_cell build_entry
  rw [if_neg hij]
  split
  next d heq =>
    rw [heq]
    exact mupdate_same m i j _
  next heq =>
    rw [heq]
    exact mupdate_same m i j _

theorem build_row_fold_ne (oracle : Node → Node → Option ℚ) (tgts : List Node)
    (tf : Nat → Nat → ℚ) (i : Nat) :
    ∀ (L : List Nat) (m : Mat) (a b : Nat), a ≠ i ∨ b ∉ L →
      (L.foldl (fun acc j => build_cell oracle tgts tf acc i j) m) a b = m a b
  | [], _, _, _, _ => rfl
  | x :: t, m, a, b, h => by
      rw [List.foldl_cons]
      have ht : a ≠ i ∨ b ∉ t := by
        rcases h with h | h
        · exact Or.inl h
        · exact Or.inr (fun hb => h (List.mem_cons_of_mem x hb))
      rw [build_row_fold_ne oracle tgts tf i t _ a b ht]
      refine build_cell_ne oracle tgts tf m i x ?_
      rintro ⟨rfl, rfl⟩
      rcases h with h | h
      · exact h rfl
      · exact h (List.mem_cons_self b t)

theorem build_row_fold_val (oracle : Node → Node → Option ℚ) (tgts : List Node)
    (tf : Nat → Nat → ℚ) (i : Nat) :
    ∀ (L : List Nat) (m : Mat) (j : Nat), j ∈ L → L.Nodup → i ≠ j →
      (L.foldl (fun acc j' => build_cell oracle tgts tf acc i j') m) i j
        = build_entry oracle tgts tf i j
  | [], _, j, hj, _, _ => absurd hj (List.not_mem_nil j)
  | x :: t, m, j, hj, hnd, hij => by
      rw [List.foldl_cons]
      rcases List.mem_cons.1 hj with rfl | hjt
      · have hnt : j ∉ t := (List.nodup_cons.1 hnd).1
        rw [build_row_fold_ne oracle tgts tf i t _ i j (Or.inr hnt)]
        exact build_cell_same oracle tgts tf m i j hij
      · exact build_row_fold_val oracle tgts tf i t _ j hjt (List.nodup_cons.1 hnd).2 hij

theorem build_top_fold_ne (oracle : Node → Node → Option ℚ) (tgts : List Node)
    (tf : Nat → Nat → ℚ) (N : Nat) :
    ∀ (L : List Nat) (m : Mat) (a b : Nat), a ∉ L →
      (L.foldl (fun acc i => build_row oracle tgts tf N acc i) m) a b = m a b
  | [], _, _, _, _ => rfl
  | x :: t, m, a, b, h => by
      rw [List.foldl_cons,
        build_top_fold_ne oracle tgts tf N t _ a b (fun ha => h (List.mem_cons_of_mem x ha))]
      exact build_row_fold_ne oracle tgts tf x (List.range N) m a b
        (Or.inl (fun hax => h (hax ▸ List.mem_cons_self x t)))

theorem build_top_fold_val (oracle : Node → Node → Option ℚ) (tgts : List Node)
    (tf : Nat → Nat → ℚ) (N : Nat) (j : Nat) (hj : j ∈ List.range N) :
    ∀ (L : List Nat) (m : Mat) (i : Nat), i ∈ L → L.Nodup → i ≠ j →
      (L.foldl (fun acc i' => build_row oracle tgts tf N acc i') m) i j
        = build_entry oracle tgts tf i j
  | [], _, i, hi, _, _ => absurd hi (List.not_mem_nil i)
  | x :: t, m, i, hi, hnd, hij => by
      rw [List.foldl_cons]
      rcases List.mem_cons.1 hi with rfl | hit
      · have hnt : i ∉ t := (List.nodup_cons.1 hnd).1
        rw [build_top_fold_ne oracle tgts tf N t _ i j hnt]
        exact build_row_fold_val oracle tgts tf i (List.range N) m j hj
          (List.nodup_range N) hij
      · exact build_top_fold_val oracle tgts tf N j hj t _ i hit
          (List.nodup_cons.1 hnd).2 hij

theorem precalculate_distances_entry (oracle : Node → Node → Option ℚ)
    (tgts : List Node) (tf : Nat → Nat → ℚ) (i j : Nat)
    (hi : i < tgts.length) (hj : j < tgts.length) (hij : i ≠ j) :
    precalculate_distances oracle tgts tf i j = build_entry oracle tgts tf i j := by
  unfold precalculate_distances
  exact build_top_fold_val oracle tgts tf tgts.length j (List.mem_range.2 hj)
    (List.range tgts.length) _ i (List.mem_range.2 hi) (List.nodup_range _) hij

/-- C7: after the bulk build, every off-diagonal entry `(i, j)` equals
the oracle's shortest-path length from target `i` to target `j` times a
per-entry traffic factor lying in `[1, 6/5]` (the factor stream `tf` models
the independent `random.uniform(1.0, 1.2)` draws), or the sentinel `1e9`
when the oracle reports no path — the matrix is total either way. -/
theorem C7_bulk_build (oracle : Node → Node → Option ℚ) (tgts : List Node)
    (tf : Nat → Nat → ℚ) (i j : Nat) (hi : i < tgts.length) (hj : j < tgts.length)
    (hij : i ≠ j) (hf : 1 ≤ tf i j ∧ tf i j ≤ 6/5) :
    ∃ fac, 1 ≤ fac ∧ fac ≤ 6/5 ∧
      ((oracle (tgts.getD i 0) (tgts.getD j 0) = none ∧
          precalculate_distances oracle tgts tf i j = sentinel) ∨
       (∃ d, oracle (tgts.getD i 0) (tgts.getD j 0) = some d ∧
          precalculate_distances oracle tgts tf i j = d * fac)) := by
  refine ⟨tf i j, hf.1, hf.2, ?_⟩
  have hval := precalculate_distances_entry oracle tgts tf i j hi hj hij
  cases horacle : oracle (tgts.getD i 0) (tgts.getD j 0) with
  | none =>
      refine Or.inl ⟨rfl, ?_⟩
      rw [hval]
      unfold build_entry
      rw [horacle]
  | some d =>
      refine Or.inr ⟨d, rfl, ?_⟩
      rw [hval]
      unfold build_entry
      rw [horacle]

/-- C7, witness: a two-target instance with a one-way path of length 10
and factor 11/10 stores 11 in cell (0, 1). -/
theorem C7_bulk_build_witness :
    ∃ fac, 1 ≤ fac ∧ fac ≤ 6/5 ∧
      ((( fun a b => if a = 5 ∧ b = 7 then some (10 : ℚ) else none ) 5 7 = none ∧
          precalculate_distances
            (fun a b => if a = 5 ∧ b = 7 then some (10 : ℚ) else none) [5, 7]
            (fun _ _ => 11/10) 0 1 = sentinel) ∨
       (∃ d, (( fun a b => if a = 5 ∧ b = 7 then some (10 : ℚ) else none ) : Node → Node → Option ℚ) 5 7 = some d ∧
          precalculate_distances
            (fun a b => if a = 5 ∧ b = 7 then some (10 : ℚ) else none) [5, 7]
            (fun _ _ => 11/10) 0 1 = d * fac)) := by
  have h := C7_bulk_build (fun a b => if a = 5 ∧ b = 7 then some (10 : ℚ) else none)
    [5, 7] (fun _ _ => 11/10) 0 1 (by norm_num) (by norm_num) (by omega)
    (by norm_num)
  simpa using h

/-- One body execution of the extension loop in `add_dynamic_order`: skip
`i == new_idx`, query both directions, and either write both scaled entries
(the incremental path uses the fixed multiplier 1.2 = 6/5) or, if either
query raises, write the sentinel into both cells. -/
def extend_cell (oracle : Node → Node → Option ℚ) (tgts : List Node) (newIdx : Nat)
    (m : Mat) (i : Nat) : Mat :=
  if i = newIdx then m
  else
    match oracle (tgts.getD i 0) (tgts.getD newIdx 0),
        oracle (tgts.getD newIdx 0) (tgts.getD i 0) with
    | some dto, some dfrom =>
        mupdate (mupdate m i newIdx (dto * (6/5))) newIdx i (dfrom * (6/5))
    | _, _ => mupdate (mupdate m i newIdx sentinel) newIdx i sentinel

/-- The matrix extension in `add_dynamic_order`: allocate an
`(old+1)×(old+1)` zero matrix, block-copy the old `old×old` entries, then
run the extension loop over `range(old+1)`. -/
def extend_matrix (oracle : Node → Node → Option ℚ) (tgts : List Node)
    (oldSize : Nat) (mOld : Mat) : Mat :=
  (List.range (oldSize + 1)).foldl
    (fun acc i => extend_cell oracle tgts oldSize acc i)
    (fun a b => if a < oldSize ∧ b < oldSize then mOld a b else 0)

/-- The value stored in the new column cell `(i, new_idx)`. -/
def extend_to_entry (oracle : Node → Node → Option ℚ) (tgts : List Node)
    (newIdx i : Nat) : ℚ :=
  match oracle (tgts.getD i 0) (tgts.getD newIdx 0),
      oracle (tgts.getD newIdx 0) (tgts.getD i 0) with
  | some dto, some _ => dto * (6/5)
  | _, _ => sentinel

/-- The value stored in the new row cell `(new_idx, i)`. -/
def extend_from_entry (oracle : Node → Node → Option ℚ) (tgts : List Node)
    (newIdx i : Nat) : ℚ :=
  match oracle (tgts.getD i 0) (tgts.getD newIdx 0),
      oracle (tgts.getD newIdx 0) (tgts.getD i 0) with
  | some _, some dfrom => dfrom * (6/5)
  | _, _ => sentinel

theorem extend_cell_frame (oracle : Node → Node → Option ℚ) (tgts : List Node)
    (newIdx : Nat) (m : Mat) (i : Nat) {a b : Nat}
    (ha : a ≠ newIdx) (hb : b ≠ newIdx) :
    extend_cell oracle tgts newIdx m i a b = m a b := by
  unfold extend_cell
  split
  · rfl
  · have h1 : ¬(a = i ∧ b = newIdx) := fun hc => hb hc.2
    have h2 : ¬(a = newIdx ∧ b = i) := fun hc => ha hc.1
    cases oracle (tgts.getD i 0) (tgts.getD newIdx 0) with
    | some dto =>
        cases oracle (tgts.getD newIdx 0) (tgts.getD i 0) with
        | some dfrom =>
            show mupdate (mupdate m i newIdx (dto * (6/5))) newIdx i (dfrom * (6/5)) a b
                = m a b
            rw [mupdate_ne _ _ _ _ h2, mupdate_ne _ _ _ _ h1]
        | none =>
            show mupdate (mupdate m i newIdx sentinel) newIdx i sentinel a b = m a b
            rw [mupdate_ne _ _ _ _ h2, mupdate_ne _ _ _ _ h1]
    | none =>
        show mupdate (mupdate m i newIdx sentinel) newIdx i sentinel a b = m a b
        rw [mupdate_ne _ _ _ _ h2, mupdate_ne _ _ _ _ h1]

theorem extend_cell_other (oracle : Node → Node → Option ℚ) (tgts : List Node)
    (newIdx : Nat) (m : Mat) (i x : Nat) (hin : i ≠ newIdx) (hxi : x ≠ i) :
    extend_cell oracle tgts newIdx m x i newIdx = m i newIdx ∧
    extend_cell oracle tgts newIdx m x newIdx i = m newIdx i := by
  unfold extend_cell
  split
  · exact ⟨rfl, rfl⟩
  · have h1 : ¬(i = x ∧ (newIdx : Nat) = newIdx) := fun hc => hxi hc.1.symm
    have h2 : ¬(i = newIdx ∧ (newIdx : Nat) = x) := fun hc => hin hc.1
    have h3 : ¬((newIdx : Nat) = x ∧ i = newIdx) := fun hc => hin hc.2
    have h4 : ¬((newIdx : Nat) = newIdx ∧ i = x) := fun hc => hxi hc.2.symm
    cases oracle (tgts.getD x 0) (tgts.getD newIdx 0) with
    | some dto =>
        cases oracle (tgts.getD newIdx 0) (tgts.getD x 0) with
        | some dfrom =>
            constructor
            · show mupdate (mupdate m x newIdx (dto * (6/5))) newIdx x (dfrom * (6/5))
                  i newIdx = m i newIdx
              rw [mupdate_ne _ _ _ _ h2, mupdate_ne _ _ _ _ h1]
            · show mupdate (mupdate m x newIdx (dto * (6/5))) newIdx x (dfrom * (6/5))
                  newIdx i = m newIdx i
              rw [mupdate_ne _ _ _ _ h4, mupdate_ne _ _ _ _ h3]
        | none =>
            constructor
            · show mupdate (mupdate m x newIdx sentinel) newIdx x sentinel i newIdx
                  = m i newIdx
              rw [mupdate_ne _ _ _ _ h2, mupdate_ne _ _ _ _ h1]
            · show mupdate (mupdate m x newIdx sentinel) newIdx x sentinel newIdx i
                  = m newIdx i
              rw [mupdate_ne _ _ _ _ h4, mupdate_ne _ _ _ _ h3]
    | none =>
        constructor
        · show mupdate (mupdate m x newIdx sentinel) newIdx x sentinel i newIdx
              = m i newIdx
          rw [mupdate_ne _ _ _ _ h2, mupdate_ne _ _ _ _ h1]
        · show mupdate (mupdate m x newIdx sentinel) newIdx x sentinel newIdx i
              = m newIdx i
          rw [mupdate_ne _ _ _ _ h4, mupdate_ne _ _ _ _ h3]

theorem extend_cell_val (oracle : Node → Node → Option ℚ) (tgts : List Node)
    (newIdx : Nat) (m : Mat) (i : Nat) (hin : i ≠ newIdx) :
    extend_cell oracle tgts newIdx m i i newIdx
        = extend_to_entry oracle tgts newIdx i ∧
    extend_cell oracle tgts newIdx m i newIdx i
        = extend_from_entry oracle tgts newIdx i := by
  unfold extend_cell extend_to_entry extend_from_entry
  rw [if_neg hin]
  have hne : ¬(i = newIdx ∧ (newIdx : Nat) = i) := fun hc => hin hc.1
  cases oracle (tgts.getD i 0) (tgts.getD newIdx 0) with
  | some dto =>
      cases oracle (tgts.getD newIdx 0) (tgts.getD i 0) with
      | some dfrom =>
          constructor
          · show mupdate (mupdate m i newIdx (dto * (6/5))) newIdx i (dfrom * (6/5))
                i newIdx = dto * (6/5)
            rw [mupdate_ne _ _ _ _ hne, mupdate_same]
          · show mupdate (mupdate m i newIdx (dto * (6/5))) newIdx i (dfrom * (6/5))
                newIdx i = dfrom * (6/5)
            rw [mupdate_same]
      | none =>
          constructor
          · show mupdate (mupdate m i newIdx sentinel) newIdx i sentinel i newIdx
                = sentinel
            rw [mupdate_ne _ _ _ _ hne, mupdate_same]
          · show mupdate (mupdate m i newIdx sentinel) newIdx i sentinel newIdx i
                = sentinel
            rw [mupdate_same]
  | none =>
      constructor
      · show mupdate (mupdate m i newIdx sentinel) newIdx i sentinel i newIdx = sentinel
        rw [mupdate_ne _ _ _ _ hne, mupdate_same]
      · show mupdate (mupdate m i newIdx sentinel) newIdx i sentinel newIdx i = sentinel
        rw [mupdate_same]

theorem extend_fold_frame (oracle : Node → Node → Option ℚ) (tgts : List Node)
    (newIdx : Nat) :
    ∀ (L : List Nat) (m : Mat) (a b : Nat), a ≠ newIdx → b ≠ newIdx →
      (L.foldl (fun acc i => extend_cell oracle tgts newIdx acc i) m) a b = m a b
  | [], _, _, _, _, _ => rfl
  | x :: t, m, a, b, ha, hb => by
      rw [List.foldl_cons, extend_fold_frame oracle tgts newIdx t _ a b ha hb]
      exact extend_cell_frame oracle tgts newIdx m x ha hb

theorem extend_fold_pres (oracle : Node → Node → Option ℚ) (tgts : List Node)
    (newIdx : Nat) (i : Nat) (hin : i ≠ newIdx) :
    ∀ (L : List Nat) (m : Mat), i ∉ L →
      (L.foldl (fun acc x => extend_cell oracle tgts newIdx acc x) m) i newIdx
          = m i newIdx ∧
      (L.foldl (fun acc x => extend_cell oracle tgts newIdx acc x) m) newIdx i
          = m newIdx i
  | [], _, _ => ⟨rfl, rfl⟩
  | x :: t, m, h => by
      have hxi : x ≠ i := fun hc => h (hc ▸ List.mem_cons_self x t)
      have ht := extend_fold_pres oracle tgts newIdx i hin t
        (extend_cell oracle tgts newIdx m x) (fun hc => h (List.mem_cons_of_mem x hc))
      have hc := extend_cell_other oracle tgts newIdx m i x hin hxi
      rw [List.foldl_cons]
      exact ⟨ht.1.trans hc.1, ht.2.trans hc.2⟩

theorem extend_fold_val (oracle : Node → Node → Option ℚ) (tgts : List Node)
    (newIdx : Nat) (i : Nat) (hin : i ≠ newIdx) :
    ∀ (L : List Nat) (m : Mat), i ∈ L → L.Nodup →
      (L.foldl (fun acc x => extend_cell oracle tgts newIdx acc x) m) i newIdx
          = extend_to_entry oracle tgts newIdx i ∧
      (L.foldl (fun acc x => extend_cell oracle tgts newIdx acc x) m) newIdx i
          = extend_from_entry oracle tgts newIdx i
  | [], _, hi, _ => absurd hi (List.not_mem_nil i)
  | x :: t, m, hi, hnd => by
      rw [List.foldl_cons]
      rcases List.mem_cons.1 hi with rfl | hit
      · have hnt : i ∉ t := (List.nodup_cons.1 hnd).1
        have hp := extend_fold_pres oracle tgts newIdx i hin t
          (extend_cell oracle tgts newIdx m i) hnt
        have hv := extend_cell_val oracle tgts newIdx m i hin
        exact ⟨hp.1.trans hv.1, hp.2.trans hv.2⟩
      · exact extend_fold_val oracle tgts newIdx i hin t _ hit (List.nodup_cons.1 hnd).2

theorem extend_matrix_frame (oracle : Node → Node → Option ℚ) (tgts : List Node)
    (oldSize : Nat) (mOld : Mat) (a b : Nat) (ha : a < oldSize) (hb : b < oldSize) :
    extend_matrix oracle tgts oldSize mOld a b = mOld a b := by
  unfold extend_matrix
  rw [extend_fold_frame oracle tgts oldSize _ _ a b (by omega) (by omega)]
  simp only [ha, hb, and_self, if_true]

theorem extend_matrix_new (oracle : Node → Node → Option ℚ) (tgts : List Node)
    (oldSize : Nat) (mOld : Mat) (i : Nat) (hi : i < oldSize) :
    extend_matrix oracle tgts oldSize mOld i oldSize
        = extend_to_entry oracle tgts oldSize i ∧
    extend_matrix oracle tgts oldSize mOld oldSize i
        = extend_from_entry oracle tgts oldSize i := by
  unfold extend_matrix
  exact extend_fold_val oracle tgts oldSize i (by omega) (List.range (oldSize + 1)) _
    (List.mem_range.2 (by omega)) (List.nodup_range _)

/-- C3: extending an `N×N` matrix to `(N+1)×(N+1)` preserves the whole
top-left `N×N` block entry-for-entry (old costs are never recomputed), and
the freshly computed entries are exactly the new column `(i, N)` and new row
`(N, i)` values determined by the two oracle queries for each old target. -/
theorem C3_extend_frame (oracle : Node → Node → Option ℚ) (tgts : List Node)
    (oldSize : Nat) (mOld : Mat) :
    (∀ a b, a < oldSize → b < oldSize →
      extend_matrix oracle tgts oldSize mOld a b = mOld a b) ∧
    (∀ i, i < oldSize →
      extend_matrix oracle tgts oldSize mOld i oldSize
          = extend_to_entry oracle tgts oldSize i ∧
      extend_matrix oracle tgts oldSize mOld oldSize i
          = extend_from_entry oracle tgts oldSize i) :=
  ⟨fun a b ha hb => extend_matrix_frame oracle tgts oldSize mOld a b ha hb,
    fun i hi => extend_matrix_new oracle tgts oldSize mOld i hi⟩

/-- C3, witness: a concrete 1×1 extension: the old cell (0,0) is kept,
and the new entries (0,1), (1,0) hold the two scaled one-way lengths. -/
theorem C3_extend_frame_witness :
    extend_matrix (fun _ _ => some 10) [5, 7] 1 mOne 0 0 = mOne 0 0 ∧
    extend_matrix (fun _ _ => some 10) [5, 7] 1 mOne 0 1
        = extend_to_entry (fun _ _ => some 10) [5, 7] 1 0 ∧
    extend_matrix (fun _ _ => some 10) [5, 7] 1 mOne 1 0
        = extend_from_entry (fun _ _ => some 10) [5, 7] 1 0 := by
  have h := C3_extend_frame (fun _ _ => some 10) [5, 7] 1 mOne
  exact ⟨h.1 0 0 (by omega) (by omega), (h.2 0 (by omega)).1, (h.2 0 (by omega)).2⟩

/-- C10: the two directional entries between an existing target `i` and
the new target are computed together: if the oracle fails in either
direction, both `matrix[i][new]` and `matrix[new][i]` are set to the
sentinel `1e9`, even when a path exists in the other direction. -/
theorem C10_pairwise_sentinel (oracle : Node → Node → Option ℚ) (tgts : List Node)
    (oldSize : Nat) (mOld : Mat) (i : Nat) (hi : i < oldSize)
    (hfail : oracle (tgts.getD i 0) (tgts.getD oldSize 0) = none ∨
      oracle (tgts.getD oldSize 0) (tgts.getD i 0) = none) :
    extend_matrix oracle tgts oldSize mOld i oldSize = sentinel ∧
    extend_matrix oracle tgts oldSize mOld oldSize i = sentinel := by
  obtain ⟨h1, h2⟩ := extend_matrix_new oracle tgts oldSize mOld i hi
  rw [h1, h2]
  unfold extend_to_entry extend_from_entry
  rcases hfail with hf | hf
  · rw [hf]
    cases oracle (tgts.getD oldSize 0) (tgts.getD i 0) with
    | some d => exact ⟨rfl, rfl⟩
    | none => exact ⟨rfl, rfl⟩
  · rw [hf]
    cases oracle (tgts.getD i 0) (tgts.getD oldSize 0) with
    | some d => exact ⟨rfl, rfl⟩
    | none => exact ⟨rfl, rfl⟩

/-- C10, witness: with a path 5→7 of length 10 but no way back, both new
entries become the sentinel even though one direction is reachable. -/
theorem C10_pairwise_sentinel_witness :
    extend_matrix (fun a b => if a = 5 ∧ b = 7 then some (10 : ℚ) else none)
        [5, 7] 1 mOne 0 1 = sentinel ∧
    extend_matrix (fun a b => if a = 5 ∧ b = 7 then some (10 : ℚ) else none)
        [5, 7] 1 mOne 1 0 = sentinel :=
  C10_pairwise_sentinel (fun a b => if a = 5 ∧ b = 7 then some (10 : ℚ) else none)
    [5, 7] 1 mOne 0 (by omega) (Or.inr (by norm_num))

/-- The optimizer state that `add_dynamic_order` reads and mutates. -/
structure OptState where
  targets : List Node
  num_targets : Nat
  dist_matrix : Mat

/-- Source `add_dynamic_order`: filter the road network's node pool down to nodes
not already in the target set; if none is left, report failure and leave the
state untouched; otherwise pick one (`random.choice` modelled by the index
`pick`), append it to the targets, rebuild the matrix one row/column larger
via `extend_matrix`, and return the new index `old_size`. -/
def add_dynamic_order (nodes : List Node) (oracle : Node → Node → Option ℚ)
    (pick : Nat) (s : OptState) : Option Nat × OptState :=
  match nodes.filter (fun n => decide (n ∉ s.targets)) with
  | [] => (none, s)
  | a :: rest =>
      (some s.num_targets,
        ⟨s.targets ++ [(a :: rest).getD (pick % (a :: rest).length) 0],
          s.num_targets + 1,
          extend_matrix oracle
            (s.targets ++ [(a :: rest).getD (pick % (a :: rest).length) 0])
            s.num_targets s.dist_matrix⟩)

/-- C8: when every pool location is already a target, `add_dynamic_order`
returns no index and leaves the state (target set and matrix) unchanged;
otherwise it appends exactly one previously unused pool location, grows the
tracked size by one (extending the matrix by one row and column), and
returns the new index, which equals the old target-set size. -/
theorem C8_add_order (nodes : List Node) (oracle : Node → Node → Option ℚ)
    (pick : Nat) (s : OptState) (hsz : s.num_targets = s.targets.length) :
    ((∀ n ∈ nodes, n ∈ s.targets) →
      add_dynamic_order nodes oracle pick s = (none, s)) ∧
    ((∃ n ∈ nodes, n ∉ s.targets) →
      ∃ nn, nn ∈ nodes ∧ nn ∉ s.targets ∧
        add_dynamic_order nodes oracle pick s =
          (some s.targets.length,
            ⟨s.targets ++ [nn], s.targets.length + 1,
              extend_matrix oracle (s.targets ++ [nn]) s.targets.length
                s.dist_matrix⟩)) := by
  constructor
  · intro hall
    have hfil : nodes.filter (fun n => decide (n ∉ s.targets)) = [] := by
      rw [List.filter_eq_nil_iff]
      intro a ha
      simp [hall a ha]
    unfold add_dynamic_order
    rw [hfil]
  · intro hex
    obtain ⟨n0, hn0, hnot⟩ := hex
    have hmem : n0 ∈ nodes.filter (fun n => decide (n ∉ s.targets)) :=
      List.mem_filter.2 ⟨hn0, by simpa using hnot⟩
    cases hfil : nodes.filter (fun n => decide (n ∉ s.targets)) with
    | nil =>
        rw [hfil] at hmem
        exact absurd hmem (List.not_mem_nil n0)
    | cons a rest =>
        have hlen : pick % (a :: rest).length < (a :: rest).length :=
          Nat.mod_lt _ (by simp)
        have hmemf : (a :: rest).getD (pick % (a :: rest).length) 0 ∈ (a :: rest) := by
          rw [List.getD_eq_getElem _ _ hlen]
          exact List.getElem_mem hlen
        have hmem2 : (a :: rest).getD (pick % (a :: rest).length) 0
            ∈ nodes.filter (fun n => decide (n ∉ s.targets)) := by
          rw [hfil]
          exact hmemf
        have hsplit := List.mem_filter.1 hmem2
        refine ⟨(a :: rest).getD (pick % (a :: rest).length) 0, hsplit.1,
          by simpa using hsplit.2, ?_⟩
        unfold add_dynamic_order
        rw [hfil, ← hsz]

/-- C8, witness: a pool `[0, 1]` already fully used leaves the state
unchanged; a pool `[0, 1, 2]` over targets `[0, 1]` appends node 2 and
returns index 2, the old size. -/
theorem C8_add_order_witness :
    (add_dynamic_order [0, 1] (fun _ _ => some 10) 0 ⟨[0, 1], 2, mOne⟩
      = (none, (⟨[0, 1], 2, mOne⟩ : OptState))) ∧
    ∃ nn, nn ∈ ([0, 1, 2] : List Node) ∧ nn ∉ ([0, 1] : List Node) ∧
      add_dynamic_order [0, 1, 2] (fun _ _ => some 10) 0 ⟨[0, 1], 2, mOne⟩ =
        (some ([0, 1] : List Node).length,
          ⟨[0, 1] ++ [nn], ([0, 1] : List Node).length + 1,
            extend_matrix (fun _ _ => some 10) ([0, 1] ++ [nn])
              ([0, 1] : List Node).length mOne⟩) :=
  ⟨(C8_add_order [0, 1] (fun _ _ => some 10) 0 ⟨[0, 1], 2, mOne⟩ rfl).1 (by decide),
    (C8_add_order [0, 1, 2] (fun _ _ => some 10) 0 ⟨[0, 1], 2, mOne⟩ rfl).2
      ⟨2, by decide, by decide⟩⟩
